import Mathlib

/-!
Shallow embedding of the MCL memory substrate (mcl.c): the dual-ended
region hosting a bump-allocated relocating heap and a pointer stack, the
reference-counted string objects, the setjmp/longjmp unwinding mechanism
and the frame primitives, together with proofs of properties of these
operations.

Modelling conventions:
- Byte addresses and slot values are natural numbers; a slot is W = 8
  bytes wide (sizeof(mcl_heap_type_t) on a 64-bit host).
- Heap memory is a total function from byte address to byte value; every
  store truncates modulo 256, mirroring uint8_t stores.
- The pointer stack is a list of slot values, head = top of stack (the
  slot at the lowest address, ctx->stack_ptr[0]).
- setjmp/longjmp control flow is modelled by the TryOutcome type: a
  protected callback either returns a final context or throws a result
  kind together with the context at the throw site.
- The jb field (pointer to the innermost jmp_buf) is abstracted as a
  nesting counter: except_try installs a fresh value and restores the
  saved one, exactly as the C code saves and restores ctx->jb.
-/

namespace MCL

/-- Bytes per pointer-stack slot: sizeof(mcl_heap_type_t) on a 64-bit host. -/
def W : Nat := 8

/-- MCL_MIN_HEAP_ENTRIES from mcl.h. -/
def MCL_MIN_HEAP_ENTRIES : Nat := 16

/-- MCL_MAX_STRING_LEN from mcl.h. -/
def MCL_MAX_STRING_LEN : Nat := 32767

/-- mcl_result_t from mcl.h; syn_error stands for MCL_RESULT_SYNTAX_ERROR. -/
inductive MclResult
| ok
| out_of_memory
| runtime_error
| syn_error
deriving DecidableEq

/-- The context struct mcl_t from mcl.h.  stack_end is not stored: it is
base address plus region size, see stackEnd below.  stack_ptr is not
stored: it is determined by the length of the stack list, see
stackPtrAddr below. -/
@[ext]
structure Ctx where
  user_data : Nat
  heap_start : Nat
  heap_ptr : Nat
  nslots : Nat
  stack : List Nat
  frame_ptr : Nat
  jb : Nat
  mem : Nat → Nat

/-- Byte address one past the region: ctx->stack_end. -/
def stackEnd (c : Ctx) : Nat := c.heap_start + c.nslots * W

/-- Byte address of the current stack top: ctx->stack_ptr. -/
def stackPtrAddr (c : Ctx) : Nat := stackEnd c - c.stack.length * W

/-- stack_height: ctx->stack_end - ctx->stack_ptr in slots. -/
def stack_height (c : Ctx) : Nat := c.stack.length

/-- stack_round_up_ptr: round a byte address up to a slot boundary. -/
def stack_round_up_ptr (a : Nat) : Nat := (a + (W - 1)) / W * W

/-- stack_space: free slots between the rounded-up heap tip and the stack top. -/
def stack_space (c : Ctx) : Nat :=
  (stackPtrAddr c - stack_round_up_ptr c.heap_ptr) / W

/-- heap_space: free bytes between the heap tip and the stack top. -/
def heap_space (c : Ctx) : Nat := stackPtrAddr c - c.heap_ptr

/-- heap_contains: heap_start <= p < heap_ptr. -/
def heap_contains (c : Ctx) (p : Nat) : Bool :=
  decide (c.heap_start ≤ p ∧ p < c.heap_ptr)

/-- stack_contains: stack_ptr <= p < stack_end. -/
def stack_contains (c : Ctx) (p : Nat) : Bool :=
  decide (stackPtrAddr c ≤ p ∧ p < stackEnd c)

/-- stack_push: decrement stack_ptr and store v in the new top slot. -/
def stack_push (c : Ctx) (v : Nat) : Ctx := { c with stack := v :: c.stack }

/-- stack_pop: read the top slot and increment stack_ptr. -/
def stack_pop (c : Ctx) : Nat × Ctx :=
  (c.stack.headD 0, { c with stack := c.stack.tail })

/-- C memmove semantics on byte memory: dest range takes the source bytes. -/
def memmove (m : Nat → Nat) (dst src n : Nat) : Nat → Nat :=
  fun a => if dst ≤ a ∧ a < dst + n then m (src + (a - dst)) else m a

/-- heap_alloc: bump heap_ptr by size, return the old heap_ptr. -/
def heap_alloc (c : Ctx) (size : Nat) : Ctx × Nat :=
  ({ c with heap_ptr := c.heap_ptr + size }, c.heap_ptr)

/-- heap_grow: grow allocation p from old_size to new_size.  If p is not
the top allocation, move the bytes above it up by delta and rewrite every
stack slot whose value lies strictly between p and heap_ptr; finally
advance heap_ptr by delta. -/
def heap_grow (c : Ctx) (p old_size new_size : Nat) : Ctx :=
  let delta := new_size - old_size
  if c.heap_ptr - old_size ≠ p then
    let m := memmove c.mem (p + new_size) (p + old_size) (c.heap_ptr - (p + old_size))
    let st := c.stack.map (fun v => if p < v ∧ v < c.heap_ptr then v + delta else v)
    { c with mem := m, stack := st, heap_ptr := c.heap_ptr + delta }
  else
    { c with heap_ptr := c.heap_ptr + delta }

/-- heap_shrink: shrink allocation p from old_size to new_size, the
mirror image of heap_grow. -/
def heap_shrink (c : Ctx) (p old_size new_size : Nat) : Ctx :=
  let delta := old_size - new_size
  if c.heap_ptr - old_size ≠ p then
    let m := memmove c.mem (p + new_size) (p + old_size) (c.heap_ptr - (p + old_size))
    let st := c.stack.map (fun v => if p < v ∧ v < c.heap_ptr then v - delta else v)
    { c with mem := m, stack := st, heap_ptr := c.heap_ptr - delta }
  else
    { c with heap_ptr := c.heap_ptr - delta }

/-- heap_free: shrink to zero size. -/
def heap_free (c : Ctx) (p size : Nat) : Ctx := heap_shrink c p size 0

/-- pack_u16: little-endian byte-wise 16-bit store. -/
def pack_u16 (m : Nat → Nat) (dest v : Nat) : Nat → Nat :=
  Function.update (Function.update m dest (v % 256)) (dest + 1) (v / 256 % 256)

/-- unpack_u16: little-endian byte-wise 16-bit load. -/
def unpack_u16 (m : Nat → Nat) (src : Nat) : Nat := m (src + 1) * 256 + m src

/-- string_size: total object size of a string of length len. -/
def string_size (len : Nat) : Nat := 4 + len

/-- string_ref_count: byte at field offset 0. -/
def string_ref_count (c : Ctx) (s : Nat) : Nat := c.mem s

/-- string_len: 16-bit little-endian field at offset 1. -/
def string_len (c : Ctx) (s : Nat) : Nat := unpack_u16 c.mem (s + 1)

/-- string_chars: address of the content bytes, field offset 3. -/
def string_chars (s : Nat) : Nat := s + 3

/-- string_emplace: initialize ref count = 1, pack the length field and
write the terminating NUL. -/
def string_emplace (c : Ctx) (s len : Nat) : Ctx :=
  let m1 := Function.update c.mem s 1
  let m2 := pack_u16 m1 (s + 1) len
  { c with mem := Function.update m2 (string_chars s + len) 0 }

/-- string_alloc: throw OUT_OF_MEMORY if the object does not fit in the
free gap, otherwise bump-allocate and emplace. -/
def string_alloc (c : Ctx) (len : Nat) : Except Ctx (Ctx × Nat) :=
  if heap_space c < string_size len then .error c
  else
    let a := heap_alloc c (string_size len)
    .ok (string_emplace a.1 a.2 len, a.2)

/-- string_unref: free the object when the count is 1, otherwise
decrement the count byte. -/
def string_unref (c : Ctx) (s : Nat) : Ctx :=
  if c.mem s = 1 then heap_free c s (string_size (string_len c s))
  else { c with mem := Function.update c.mem s ((c.mem s + 255) % 256) }

/-- string_grow: check space, grow the allocation, then store new_len
into the length field with a single byte store (str[1] = new_len, as the
C source does) and re-write the NUL. -/
def string_grow (c : Ctx) (s new_len : Nat) : Except Ctx Ctx :=
  let current_len := string_len c s
  if heap_space c < new_len - current_len then .error c
  else
    let c1 := heap_grow c s (string_size current_len) (string_size new_len)
    let c2 := { c1 with mem := Function.update c1.mem (s + 1) (new_len % 256) }
    .ok { c2 with mem := Function.update c2.mem (string_chars s + new_len) 0 }

/-- string_shrink: shrink the allocation, then store new_len into the
length field with a single byte store (as the C source does) and re-write
the NUL. -/
def string_shrink (c : Ctx) (s new_len : Nat) : Ctx :=
  let current_len := string_len c s
  let c1 := heap_shrink c s (string_size current_len) (string_size new_len)
  let c2 := { c1 with mem := Function.update c1.mem (s + 1) (new_len % 256) }
  { c2 with mem := Function.update c2.mem (string_chars s + new_len) 0 }

/-- The content bytes of the string object at s, as a list. -/
def strContent (c : Ctx) (s : Nat) : List Nat :=
  (List.range (string_len c s)).map (fun i => c.mem (string_chars s + i))

/-- The comparison loop of string_compare on extracted byte lists:
first differing byte decides, else the shorter operand is smaller. -/
def cmpBytes : List Nat → List Nat → Int
| [], [] => 0
| [], _ :: _ => -1
| _ :: _, [] => 1
| x :: xs, y :: ys => if x < y then -1 else if y < x then 1 else cmpBytes xs ys

/-- string_compare: lexicographic byte compare of the two contents. -/
def string_compare (c : Ctx) (a b : Nat) : Int :=
  cmpBytes (strContent c a) (strContent c b)

/-- Outcome of running a protected callback: normal return with a final
context, or a longjmp carrying a result kind and the context at the
throw site (except_throw). -/
inductive TryOutcome
| ok (c : Ctx)
| thrown (r : MclResult) (c : Ctx)

/-- The unwind loop of except_try: pop until the stack height is back to
savedLen; release each popped heap-contained value via string_unref.
Also records the list of released values (first released first).  The
fuel argument bounds the loop; each iteration pops one slot, so fuel =
initial stack height always suffices. -/
def unwindAux : Nat → Ctx → Nat → Ctx × List Nat
| 0, c, _ => (c, [])
| fuel + 1, c, savedLen =>
  if savedLen < c.stack.length then
    let pr := stack_pop c
    if heap_contains pr.2 pr.1 then
      let r := unwindAux fuel (string_unref pr.2 pr.1) savedLen
      (r.1, pr.1 :: r.2)
    else
      unwindAux fuel pr.2 savedLen
  else (c, [])

/-- except_try: save stack_ptr, frame_ptr and jb, install a fresh landing
site, run the callback; on a throw, unwind the stack to the saved mark
releasing heap-contained slots and restore frame_ptr; in all cases
restore the saved jb.  Returns the result kind, the final context, and
the list of values released during unwinding. -/
def except_try (c : Ctx) (f : Ctx → TryOutcome) : MclResult × Ctx × List Nat :=
  let savedLen := c.stack.length
  let savedFp := c.frame_ptr
  let savedJb := c.jb
  match f { c with jb := c.jb + 1 } with
  | .ok c1 => (.ok, { c1 with jb := savedJb }, [])
  | .thrown r c1 =>
    let u := unwindAux c1.stack.length c1 savedLen
    (r, { u.1 with frame_ptr := savedFp, jb := savedJb }, u.2)

/-- frame_push: throw OUT_OF_MEMORY unless two slots are free; push the
previous frame_ptr, point frame_ptr at the slot below it, and push that
address as the self sentinel. -/
def frame_push (c : Ctx) : Except Ctx Ctx :=
  if stack_space c < 2 then .error c
  else
    let c1 := stack_push c c.frame_ptr
    let fp := stackPtrAddr c1 - W
    .ok (stack_push { c1 with frame_ptr := fp } fp)

/-- Read the stack slot at byte address a (a must be a live slot address). -/
def readSlot (c : Ctx) (a : Nat) : Nat :=
  c.stack.getD ((a - stackPtrAddr c) / W) 0

/-- The positive-level loop of frame_seek: follow the previous-frame link
lvl times, returning none if the link reaches stack_end. -/
def seekUp (c : Ctx) : Nat → Nat → Option Nat
| f, 0 => some f
| f, lvl + 1 =>
  let f1 := readSlot c (f + W)
  if f1 = stackEnd c then none else seekUp c f1 lvl

/-- The negative-level loop of frame_seek: walk the whole chain pushing
each frame address (most recently pushed first in the returned list,
mirroring stack_ptr[0] being the last push); return none when the
space check fails (OUT_OF_MEMORY).  fuel bounds the walk. -/
def chainAux (c : Ctx) : Nat → Nat → Nat → List Nat → Option (List Nat)
| 0, _, _, acc => some acc
| fuel + 1, f, space, acc =>
  if space < 1 then none
  else
    let acc1 := f :: acc
    let f1 := readSlot c (f + W)
    if f1 < stackEnd c then chainAux c fuel f1 (space - 1) acc1 else some acc1

/-- frame_seek: level 0 is the current frame; positive levels walk
outward from the top; negative levels index from the base of the
materialized chain list (-1 is the outermost frame).  The error case is
the OUT_OF_MEMORY throw while materializing the list. -/
def frame_seek (c : Ctx) (level : Int) : Except Ctx (Option Nat) :=
  if 0 < level then .ok (seekUp c c.frame_ptr level.toNat)
  else if level < 0 then
    match chainAux c (c.stack.length + 1) c.frame_ptr (stack_space c) [] with
    | none => .error c
    | some lst =>
      let lvl := (-1 - level).toNat
      if lst.length ≤ lvl then .ok none else .ok (some (lst.getD lvl 0))
  else .ok (some c.frame_ptr)

/-- The context as mcl_init initializes it before running ctx_construct:
empty heap, empty stack, frame_ptr = stack_end, no landing site. -/
def initCtx (base n ud : Nat) : Ctx :=
  { user_data := ud, heap_start := base, heap_ptr := base, nslots := n,
    stack := [], frame_ptr := base + n * W, jb := 0, mem := fun _ => 0 }

/-- ctx_construct: push the procedure table frame and the global table
frame, propagating the OUT_OF_MEMORY throw of frame_push. -/
def ctx_construct (c : Ctx) : TryOutcome :=
  match frame_push c with
  | .error c1 => .thrown .out_of_memory c1
  | .ok c1 =>
    match frame_push c1 with
    | .error c2 => .thrown .out_of_memory c2
    | .ok c2 => .ok c2

/-- mcl_init: validate the slot count, initialize the context and run
ctx_construct under except_try.  Returns the result and (on passing
validation) the resulting context. -/
def mcl_init (base n ud : Nat) : MclResult × Option Ctx :=
  if n < MCL_MIN_HEAP_ENTRIES then (.out_of_memory, none)
  else
    let r := except_try (initCtx base n ud) ctx_construct
    (r.1, some r.2.1)

/-- mcl_user_data. -/
def mcl_user_data (c : Ctx) : Nat := c.user_data

/-- One action of a protected callback in the unwinding claims: push a
freshly allocated string of a given length, or push a value that does
not point into the heap (for example NULL). -/
inductive PushOp
| str (len : Nat)
| raw (v : Nat)
deriving DecidableEq

/-- Run a list of push actions: each str action allocates a string (with
a valid length, per the string_alloc precondition) and pushes the sole
reference to it; each raw action pushes a non-heap value.  Returns none
if an allocation fails or an action violates its precondition, otherwise
the final context and the addresses of the pushed strings, most recently
pushed first. -/
def runPushes (c : Ctx) : List PushOp → Option (Ctx × List Nat)
| [] => some (c, [])
| .str len :: rest =>
  if len ≤ MCL_MAX_STRING_LEN then
    match string_alloc c len with
    | .error _ => none
    | .ok x =>
      match runPushes (stack_push x.1 x.2) rest with
      | none => none
      | some y => some (y.1, y.2 ++ [x.2])
  else none
| .raw v :: rest =>
  if v < c.heap_start ∨ stackEnd c ≤ v then runPushes (stack_push c v) rest
  else none

/-- A callback that performs the given pushes and then raises
OUT_OF_MEMORY (as in test_except_throw_unwind). -/
def oomCallback (ops : List PushOp) (c : Ctx) : TryOutcome :=
  match runPushes c ops with
  | some x => .thrown .out_of_memory x.1
  | none => .ok c

/-- Iterate frame_push K times, propagating the OUT_OF_MEMORY throw. -/
def pushFramesN : Nat → Ctx → Except Ctx Ctx
| 0, c => .ok c
| k + 1, c =>
  match frame_push c with
  | .error c1 => .error c1
  | .ok c1 => pushFramesN k c1

/-- Byte address of the m-th frame header pushed onto an otherwise empty
stack; fAddr base n 0 = stack_end (the no-frame sentinel). -/
def fAddr (base n m : Nat) : Nat := base + n * W - 2 * m * W

/-- The stack contents after m frame_pushes on an empty stack: each frame
contributes its self sentinel (on top) and the previous frame address. -/
def frameStack (base n : Nat) : Nat → List Nat
| 0 => []
| m + 1 => fAddr base n (m + 1) :: fAddr base n m :: frameStack base n m

/-- The context reached from initCtx after M successful frame_pushes. -/
def framesCtx (base n ud M : Nat) : Ctx :=
  { user_data := ud, heap_start := base, heap_ptr := base, nslots := n,
    stack := frameStack base n M, frame_ptr := fAddr base n M, jb := 0,
    mem := fun _ => 0 }

/-- Two contexts that agree on everything except heap memory above the
heap tip (which holds no live data). -/
def UnwEq (c d : Ctx) : Prop :=
  d.user_data = c.user_data ∧ d.heap_start = c.heap_start ∧
  d.heap_ptr = c.heap_ptr ∧ d.nslots = c.nslots ∧ d.stack = c.stack ∧
  d.frame_ptr = c.frame_ptr ∧ d.jb = c.jb ∧
  ∀ a, a < c.heap_ptr → d.mem a = c.mem a

/-- Claim C9: after except_try returns, whether the callback returned
normally or threw, the installed landing site (the jb field) equals its
value from immediately before the call, so nested try-runs compose. -/
theorem except_try_restores_jb (c : Ctx) (f : Ctx → TryOutcome) :
    (except_try c f).2.1.jb = c.jb := by
  unfold except_try
  split <;> rfl

/-- Claim C3: growing a non-top allocation moves the bytes above it up by
delta, rewrites exactly the stack slots whose value lies strictly between
p and the old heap_ptr (a slot equal to p is untouched), advances
heap_ptr by delta, and preserves the bytes of every other allocation
relative to its possibly shifted start. -/
theorem heap_grow_spec (c : Ctx) (p old_size new_size a i : Nat)
    (hlive : p + old_size ≤ c.heap_ptr)
    (hnottop : p + old_size ≠ c.heap_ptr)
    (hlt : old_size < new_size)
    (hspace : new_size - old_size ≤ heap_space c) :
    (heap_grow c p old_size new_size).heap_ptr
        = c.heap_ptr + (new_size - old_size)
    ∧ (heap_grow c p old_size new_size).stack
        = c.stack.map
            (fun v => if p < v ∧ v < c.heap_ptr then v + (new_size - old_size) else v)
    ∧ (c.stack.getD i 0 = p → (heap_grow c p old_size new_size).stack.getD i 0 = p)
    ∧ (p < c.stack.getD i 0 → c.stack.getD i 0 < c.heap_ptr →
        (heap_grow c p old_size new_size).stack.getD i 0
          = c.stack.getD i 0 + (new_size - old_size))
    ∧ (p + old_size ≤ a → a < c.heap_ptr →
        (heap_grow c p old_size new_size).mem (a + (new_size - old_size)) = c.mem a)
    ∧ (a < p + old_size → (heap_grow c p old_size new_size).mem a = c.mem a) := by
  have hcond : c.heap_ptr - old_size ≠ p := by omega
  have hmap : ∀ j : Nat, (heap_grow c p old_size new_size).stack.getD j 0
      = if p < c.stack.getD j 0 ∧ c.stack.getD j 0 < c.heap_ptr
        then c.stack.getD j 0 + (new_size - old_size) else c.stack.getD j 0 := by
    intro j
    simp only [heap_grow, if_pos hcond]
    have h0 : (0 : Nat)
        = (fun v => if p < v ∧ v < c.heap_ptr then v + (new_size - old_size) else v) 0 := by
      simp
    conv_lhs => rw [h0]
    rw [List.getD_map]
  refine ⟨?_, ?_, ?_, ?_, ?_, ?_⟩
  · simp only [heap_grow, if_pos hcond]
  · simp only [heap_grow, if_pos hcond]
  · intro h
    rw [hmap i, h]
    simp
  · intro h1 h2
    rw [hmap i, if_pos ⟨h1, h2⟩]
  · intro h1 h2
    simp only [heap_grow, if_pos hcond, memmove]
    rw [if_pos (by constructor <;> omega)]
    congr 1
    omega
  · intro h1
    simp only [heap_grow, if_pos hcond, memmove]
    rw [if_neg (by omega)]

/-- Witness for heap_grow_spec at the concrete scenario of spec test S2:
allocations A at 1000 (10 bytes) and B at 1010 (20 bytes), both pushed;
grow A from 10 to 25 bytes. -/
theorem heap_grow_spec_witness :
    (heap_grow
        { user_data := 0, heap_start := 1000, heap_ptr := 1030, nslots := 20,
          stack := [1010, 1000, 3], frame_ptr := 1160, jb := 0,
          mem := fun t => t % 256 } 1000 10 25).heap_ptr = 1045
    ∧ (heap_grow
        { user_data := 0, heap_start := 1000, heap_ptr := 1030, nslots := 20,
          stack := [1010, 1000, 3], frame_ptr := 1160, jb := 0,
          mem := fun t => t % 256 } 1000 10 25).stack.getD 0 0 = 1025
    ∧ (heap_grow
        { user_data := 0, heap_start := 1000, heap_ptr := 1030, nslots := 20,
          stack := [1010, 1000, 3], frame_ptr := 1160, jb := 0,
          mem := fun t => t % 256 } 1000 10 25).stack.getD 1 0 = 1000
    ∧ (heap_grow
        { user_data := 0, heap_start := 1000, heap_ptr := 1030, nslots := 20,
          stack := [1010, 1000, 3], frame_ptr := 1160, jb := 0,
          mem := fun t => t % 256 } 1000 10 25).mem (1012 + 15) = 1012 % 256 := by
  have h := heap_grow_spec
    { user_data := 0, heap_start := 1000, heap_ptr := 1030, nslots := 20,
      stack := [1010, 1000, 3], frame_ptr := 1160, jb := 0,
      mem := fun t => t % 256 } 1000 10 25 1012 0
    (by decide) (by decide) (by decide) (by decide)
  have h1 := heap_grow_spec
    { user_data := 0, heap_start := 1000, heap_ptr := 1030, nslots := 20,
      stack := [1010, 1000, 3], frame_ptr := 1160, jb := 0,
      mem := fun t => t % 256 } 1000 10 25 1012 1
    (by decide) (by decide) (by decide) (by decide)
  refine ⟨h.1, ?_, ?_, ?_⟩
  · exact h.2.2.2.1 (by decide) (by decide)
  · exact h1.2.2.1 (by decide)
  · exact h.2.2.2.2.1 (by decide) (by decide)

/-- Claim C10: string_grow leaves the first L content bytes of the grown
string unchanged, because heap_grow only moves the bytes above the
allocation. -/
theorem string_grow_preserves_content (c : Ctx) (s new_len : Nat) (c' : Ctx)
    (i : Nat)
    (hok : string_grow c s new_len = .ok c')
    (hlen : string_len c s < new_len)
    (hi : i < string_len c s) :
    c'.mem (string_chars s + i) = c.mem (string_chars s + i) := by
  simp only [string_grow] at hok
  by_cases hsp : heap_space c < new_len - string_len c s
  · rw [if_pos hsp] at hok
    cases hok
  · rw [if_neg hsp] at hok
    injection hok with hok
    subst hok
    simp only [string_chars, string_size] at hi ⊢
    rw [Function.update_noteq (by omega), Function.update_noteq (by omega)]
    unfold heap_grow
    simp only [string_size]
    by_cases htop : c.heap_ptr - (4 + string_len c s) ≠ s
    · simp only [if_pos htop, memmove]
      rw [if_neg (by omega)]
    · simp only [if_neg htop]

/-- Witness for string_grow_preserves_content: grow a length-2 string
(content bytes at 803 and 804 of the fresh heap) to length 5 and observe
the first content byte untouched. -/
theorem string_grow_preserves_content_witness :
    ((string_grow
        ((string_alloc (framesCtx 800 300 7 2) 2).toOption.getD
          (framesCtx 800 300 7 2, 800)).1 800 5).toOption.getD
        (framesCtx 800 300 7 2)).mem 803
      = ((string_alloc (framesCtx 800 300 7 2) 2).toOption.getD
          (framesCtx 800 300 7 2, 800)).1.mem 803 := by
  have h := string_grow_preserves_content
    ((string_alloc (framesCtx 800 300 7 2) 2).toOption.getD
      (framesCtx 800 300 7 2, 800)).1 800 5
    ((string_grow
        ((string_alloc (framesCtx 800 300 7 2) 2).toOption.getD
          (framesCtx 800 300 7 2, 800)).1 800 5).toOption.getD
        (framesCtx 800 300 7 2)) 0
    rfl (by decide) (by decide)
  exact h

/-- Claim C4: string_alloc raises OUT_OF_MEMORY (with the context
untouched) exactly when the object does not fit in the free gap;
otherwise it returns the old heap_ptr as a fresh object with reference
count 1, a little-endian 16-bit length field holding len, a NUL at
chars+len, and heap_space smaller by exactly 4 + len. -/
theorem string_alloc_spec (c : Ctx) (len : Nat) (hlen : len ≤ MCL_MAX_STRING_LEN) :
    (heap_space c < string_size len → string_alloc c len = .error c)
    ∧ (string_size len ≤ heap_space c →
        ∃ c', string_alloc c len = .ok (c', c.heap_ptr)
          ∧ string_ref_count c' c.heap_ptr = 1
          ∧ string_len c' c.heap_ptr = len
          ∧ c'.mem (c.heap_ptr + 1) = len % 256
          ∧ c'.mem (c.heap_ptr + 2) = len / 256
          ∧ c'.mem (string_chars c.heap_ptr + len) = 0
          ∧ c'.heap_ptr = c.heap_ptr + string_size len
          ∧ c'.stack = c.stack
          ∧ heap_space c' + string_size len = heap_space c) := by
  have hmax : len < 65536 := by
    simp only [MCL_MAX_STRING_LEN] at hlen
    omega
  constructor
  · intro h
    rw [string_alloc, if_pos h]
  · intro h
    refine ⟨string_emplace { c with heap_ptr := c.heap_ptr + string_size len }
        c.heap_ptr len, ?_, ?_, ?_, ?_, ?_, ?_, ?_, ?_, ?_⟩
    · rw [string_alloc, if_neg (by omega)]
      rfl
    · simp only [string_emplace, string_ref_count, pack_u16, string_chars]
      rw [Function.update_noteq (by omega), Function.update_noteq (by omega),
        Function.update_noteq (by omega), Function.update_same]
    · simp only [string_emplace, string_len, unpack_u16, pack_u16, string_chars]
      rw [Function.update_noteq (by omega), Function.update_same,
        Function.update_noteq (by omega), Function.update_noteq (by omega),
        Function.update_same]
      omega
    · simp only [string_emplace, pack_u16, string_chars]
      rw [Function.update_noteq (by omega), Function.update_noteq (by omega),
        Function.update_same]
    · simp only [string_emplace, pack_u16, string_chars]
      rw [Function.update_noteq (by omega), Function.update_same]
      omega
    · simp only [string_emplace, pack_u16, string_chars]
      rw [Function.update_same]
    · rfl
    · rfl
    · simp only [string_emplace, heap_space, stackPtrAddr, stackEnd,
        string_size] at h ⊢
      omega

/-- Witness for string_alloc_spec: both branches on the freshly
initialized 16-slot context (ample space for a 3-byte string) and on a
context whose free gap is only 3 bytes. -/
theorem string_alloc_spec_witness :
    string_alloc
      { user_data := 0, heap_start := 800, heap_ptr := 925, nslots := 16,
        stack := [], frame_ptr := 928, jb := 0, mem := fun _ => 0 } 3
      = .error
      { user_data := 0, heap_start := 800, heap_ptr := 925, nslots := 16,
        stack := [], frame_ptr := 928, jb := 0, mem := fun _ => 0 }
    ∧ ∃ c', string_alloc (framesCtx 800 16 7 2) 3 = .ok (c', 800)
        ∧ string_ref_count c' 800 = 1
        ∧ string_len c' 800 = 3
        ∧ c'.mem (string_chars 800 + 3) = 0 := by
  constructor
  · exact (string_alloc_spec
      { user_data := 0, heap_start := 800, heap_ptr := 925, nslots := 16,
        stack := [], frame_ptr := 928, jb := 0, mem := fun _ => 0 } 3
      (by decide)).1 (by decide)
  · obtain ⟨c', h1, h2, h3, _, _, h6, _⟩ :=
      (string_alloc_spec (framesCtx 800 16 7 2) 3 (by decide)).2 (by decide)
    exact ⟨c', h1, h2, h3, h6⟩

/-- The comparison loop only returns -1, 0 or 1. -/
theorem cmpBytes_range (xs ys : List Nat) :
    cmpBytes xs ys = -1 ∨ cmpBytes xs ys = 0 ∨ cmpBytes xs ys = 1 := by
  induction xs generalizing ys with
  | nil => cases ys <;> simp [cmpBytes]
  | cons x xs ih =>
    cases ys with
    | nil => simp [cmpBytes]
    | cons y ys =>
      simp only [cmpBytes]
      by_cases h1 : x < y
      · simp [h1]
      · by_cases h2 : y < x
        · simp [h1, h2]
        · simpa [h1, h2] using ih ys

/-- The comparison loop is antisymmetric. -/
theorem cmpBytes_antisymm (xs ys : List Nat) :
    cmpBytes xs ys = - cmpBytes ys xs := by
  induction xs generalizing ys with
  | nil => cases ys <;> simp [cmpBytes]
  | cons x xs ih =>
    cases ys with
    | nil => simp [cmpBytes]
    | cons y ys =>
      simp only [cmpBytes]
      rcases Nat.lt_trichotomy x y with h | h | h
      · rw [if_pos h, if_neg (by omega), if_pos h]
      · subst h
        simp only [Nat.lt_irrefl, if_false]
        exact ih ys
      · rw [if_neg (by omega), if_pos h, if_pos h]
        decide

/-- The comparison loop returns 0 exactly on equal byte lists. -/
theorem cmpBytes_eq_zero_iff (xs ys : List Nat) :
    cmpBytes xs ys = 0 ↔ xs = ys := by
  induction xs generalizing ys with
  | nil => cases ys <;> simp [cmpBytes]
  | cons x xs ih =>
    cases ys with
    | nil => simp [cmpBytes]
    | cons y ys =>
      simp only [cmpBytes]
      rcases Nat.lt_trichotomy x y with h | h | h
      · rw [if_pos h]
        constructor
        · intro hc
          cases hc
        · rintro ⟨rfl, rfl⟩
          omega
      · subst h
        simp only [Nat.lt_irrefl, if_false]
        rw [ih ys]
        simp
      · rw [if_neg (by omega), if_pos h]
        constructor
        · intro hc
          cases hc
        · rintro ⟨rfl, rfl⟩
          omega

/-- A shorter operand that is a byte-wise initial segment of the longer
one compares less. -/
theorem cmpBytes_pfx_lt (xs : List Nat) (y : Nat) (ys : List Nat) :
    cmpBytes xs (xs ++ y :: ys) = -1 := by
  induction xs with
  | nil => simp [cmpBytes]
  | cons a as ih =>
    simp only [List.cons_append, cmpBytes, Nat.lt_irrefl, if_false]
    exact ih

/-- The first position at which the operands differ decides the sign. -/
theorem cmpBytes_first_diff (pfx : List Nat) (x : Nat) (xs : List Nat)
    (y : Nat) (ys : List Nat) (h : x < y) :
    cmpBytes (pfx ++ x :: xs) (pfx ++ y :: ys) = -1 := by
  induction pfx with
  | nil => simp [cmpBytes, h]
  | cons a as ih =>
    simp only [List.cons_append, cmpBytes, Nat.lt_irrefl, if_false]
    exact ih

/-- Updating memory at an address outside the length field of the string
at s does not change string_len. -/
theorem string_len_update_ne (c : Ctx) (s t v : Nat)
    (h1 : t ≠ s + 1) (h2 : t ≠ s + 2) :
    string_len { c with mem := Function.update c.mem t v } s = string_len c s := by
  simp only [string_len, unpack_u16]
  rw [Function.update_noteq (by omega), Function.update_noteq (Ne.symm h1)]

/-- Updating memory at an address outside the length field and content
bytes of the string at s does not change its content list. -/
theorem strContent_update_ne (c : Ctx) (s t v : Nat)
    (h1 : t ≠ s + 1) (h2 : t ≠ s + 2)
    (h3 : ∀ i, i < string_len c s → t ≠ string_chars s + i) :
    strContent { c with mem := Function.update c.mem t v } s = strContent c s := by
  unfold strContent
  rw [string_len_update_ne c s t v h1 h2]
  refine List.map_congr_left ?_
  intro i hi
  exact Function.update_noteq (Ne.symm (h3 i (List.mem_range.mp hi))) _ _

/-- Claim C8: string_compare returns -1, 0 or +1 by lexicographic byte
comparison of the two contents; the first differing byte decides the
sign; a proper initial segment compares less; equal contents give 0; the
comparison is antisymmetric; and the result is independent of either
object's reference-count byte (for the same object or two disjoint
objects). -/
theorem string_compare_spec (c : Ctx) (a b : Nat) :
    (string_compare c a b = -1 ∨ string_compare c a b = 0 ∨ string_compare c a b = 1)
    ∧ string_compare c a b = - string_compare c b a
    ∧ (string_compare c a b = 0 ↔ strContent c a = strContent c b)
    ∧ (∀ y ys, strContent c b = strContent c a ++ y :: ys →
        string_compare c a b = -1)
    ∧ (∀ pfx x xs y ys, strContent c a = pfx ++ x :: xs →
        strContent c b = pfx ++ y :: ys → x < y → string_compare c a b = -1)
    ∧ (∀ v, (a = b ∨ a + string_size (string_len c a) ≤ b
          ∨ b + string_size (string_len c b) ≤ a) →
        string_compare { c with mem := Function.update c.mem a v } a b
            = string_compare c a b
        ∧ string_compare { c with mem := Function.update c.mem b v } a b
            = string_compare c a b) := by
  refine ⟨cmpBytes_range _ _, cmpBytes_antisymm _ _, ?_, ?_, ?_, ?_⟩
  · unfold string_compare
    exact cmpBytes_eq_zero_iff _ _
  · intro y ys h
    unfold string_compare
    rw [h]
    exact cmpBytes_pfx_lt _ _ _
  · intro pfx x xs y ys ha hb h
    unfold string_compare
    rw [ha, hb]
    exact cmpBytes_first_diff _ _ _ _ _ h
  · intro v hd
    have hsz : ∀ s : Nat, string_size (string_len c s) = 4 + string_len c s :=
      fun _ => rfl
    have hca : strContent { c with mem := Function.update c.mem a v } a
        = strContent c a := by
      refine strContent_update_ne c a a v (by omega) (by omega) ?_
      intro i _
      simp only [string_chars]
      omega
    have hcb : strContent { c with mem := Function.update c.mem b v } b
        = strContent c b := by
      refine strContent_update_ne c b b v (by omega) (by omega) ?_
      intro i _
      simp only [string_chars]
      omega
    have hab : strContent { c with mem := Function.update c.mem a v } b
        = strContent c b := by
      rcases hd with rfl | h | h
      · exact hcb
      · refine strContent_update_ne c b a v (by rw [hsz] at h; omega)
          (by rw [hsz] at h; omega) ?_
        intro i _
        rw [hsz] at h
        simp only [string_chars]
        omega
      · refine strContent_update_ne c b a v (by rw [hsz] at h; omega)
          (by rw [hsz] at h; omega) ?_
        intro i hi
        rw [hsz] at h
        simp only [string_chars]
        omega
    have hba : strContent { c with mem := Function.update c.mem b v } a
        = strContent c a := by
      rcases hd with rfl | h | h
      · exact hca
      · refine strContent_update_ne c a b v (by rw [hsz] at h; omega)
          (by rw [hsz] at h; omega) ?_
        intro i hi
        rw [hsz] at h
        simp only [string_chars]
        omega
      · refine strContent_update_ne c a b v (by rw [hsz] at h; omega)
          (by rw [hsz] at h; omega) ?_
        intro i _
        rw [hsz] at h
        simp only [string_chars]
        omega
    constructor
    · unfold string_compare
      rw [hca, hab]
    · unfold string_compare
      rw [hba, hcb]

/-- Witness for string_compare_spec: two concrete strings, the first a
proper initial segment of the second, compare as less / greater. -/
theorem string_compare_spec_witness :
    string_compare
      { user_data := 0, heap_start := 100, heap_ptr := 116, nslots := 0,
        stack := [], frame_ptr := 0, jb := 0,
        mem := fun t =>
          if t = 101 then 2 else if t = 103 then 49 else
          if t = 104 then 50 else if t = 111 then 3 else
          if t = 113 then 49 else if t = 114 then 50 else
          if t = 115 then 51 else 0 } 100 110 = -1
    ∧ string_compare
      { user_data := 0, heap_start := 100, heap_ptr := 116, nslots := 0,
        stack := [], frame_ptr := 0, jb := 0,
        mem := fun t =>
          if t = 101 then 2 else if t = 103 then 49 else
          if t = 104 then 50 else if t = 111 then 3 else
          if t = 113 then 49 else if t = 114 then 50 else
          if t = 115 then 51 else 0 } 110 100 = 1 := by
  have h := string_compare_spec
    { user_data := 0, heap_start := 100, heap_ptr := 116, nslots := 0,
      stack := [], frame_ptr := 0, jb := 0,
      mem := fun t =>
        if t = 101 then 2 else if t = 103 then 49 else
        if t = 104 then 50 else if t = 111 then 3 else
        if t = 113 then 49 else if t = 114 then 50 else
        if t = 115 then 51 else 0 } 100 110
  have hlt := h.2.2.2.1 51 [] (by decide)
  refine ⟨hlt, ?_⟩
  have hanti := h.2.1
  rw [hlt] at hanti
  omega

/-- Claim C1 (failing input): on the freshly initialized 16-slot context
(stack height 4), a callback that pushes one freshly allocated string of
length 1 (at address 800, the heap base) and raises RUNTIME_ERROR.  The
unwinder truncates the stack back to height 4 instead of preserving the
message: the message object 800 is released (and freed, heap_ptr back to
800) rather than left on the restored top. -/
theorem except_try_discards_error_message :
    stack_height (framesCtx 800 16 7 2) = 4
    ∧ (except_try (framesCtx 800 16 7 2)
        (fun c0 => match runPushes c0 [.str 1] with
          | some x => .thrown .runtime_error x.1
          | none => .ok c0)).1 = .runtime_error
    ∧ stack_height (except_try (framesCtx 800 16 7 2)
        (fun c0 => match runPushes c0 [.str 1] with
          | some x => .thrown .runtime_error x.1
          | none => .ok c0)).2.1 = 4
    ∧ (except_try (framesCtx 800 16 7 2)
        (fun c0 => match runPushes c0 [.str 1] with
          | some x => .thrown .runtime_error x.1
          | none => .ok c0)).2.2 = [800]
    ∧ (except_try (framesCtx 800 16 7 2)
        (fun c0 => match runPushes c0 [.str 1] with
          | some x => .thrown .runtime_error x.1
          | none => .ok c0)).2.1.heap_ptr = 800 := by
  refine ⟨rfl, ?_, ?_, ?_, ?_⟩ <;> decide

/-- Claim C5 (failing input): allocate a string of length 0 at the heap
base of a fresh 300-slot context and string_grow it to new_len = 256.
The single-byte length-field store truncates new_len modulo 256 and never
writes the high byte, so string_len afterwards reads 0, not 256 (the NUL
is still written at chars + 256). -/
theorem string_grow_truncates_length :
    (Except.toOption ((string_alloc (framesCtx 800 300 7 2) 0).bind
        (fun x => (string_grow x.1 x.2 256).map
          (fun c2 => (string_len c2 x.2, c2.mem (string_chars x.2 + 256))))))
      = some (0, 0)
    ∧ (Except.toOption ((string_alloc (framesCtx 800 300 7 2) 0).bind
        (fun x => (string_grow x.1 x.2 256).map
          (fun c2 => string_len c2 x.2)))) ≠ some 256 := by
  constructor <;> decide

/-- Claim C7 (counterexample): mcl_init on a region of exactly
MCL_MIN_HEAP_ENTRIES = 16 slots succeeds, but the resulting stack height
is 4 (two initial frames of two slots each), not 2 as claimed. -/
theorem mcl_init_stack_height_ne_two :
    (mcl_init 800 16 42).1 = .ok
    ∧ (mcl_init 800 16 42).2.map stack_height = some 4
    ∧ (mcl_init 800 16 42).2.map stack_height ≠ some 2 := by
  refine ⟨?_, ?_, ?_⟩ <;> decide

/-- The stack after M frame pushes holds 2M slots. -/
theorem frameStack_length (base n : Nat) : ∀ M, (frameStack base n M).length = 2 * M
| 0 => rfl
| M + 1 => by
  simp only [frameStack, List.length_cons, frameStack_length base n M]
  omega

/-- stackPtrAddr of the M-frame context. -/
theorem stackPtrAddr_frames (base n ud M j : Nat) :
    stackPtrAddr { framesCtx base n ud M with jb := j } = base + n * W - 2 * M * W := by
  simp only [stackPtrAddr, stackEnd, framesCtx, frameStack_length]

/-- stack_space of the M-frame context. -/
theorem stack_space_frames (base n ud M j : Nat) (hb : base % W = 0)
    (hn : 2 * M ≤ n) :
    stack_space { framesCtx base n ud M with jb := j } = n - 2 * M := by
  rw [stack_space, stackPtrAddr_frames]
  show (base + n * W - 2 * M * W - stack_round_up_ptr base) / W = n - 2 * M
  simp only [stack_round_up_ptr, W]
  simp only [W] at hb
  omega

/-- One frame_push on the M-frame context yields the (M+1)-frame context. -/
theorem frame_push_frames (base n ud M j : Nat) (hb : base % W = 0)
    (hn : 2 * M + 2 ≤ n) :
    frame_push { framesCtx base n ud M with jb := j }
      = .ok { framesCtx base n ud (M + 1) with jb := j } := by
  have hsp := stack_space_frames base n ud M j hb (by omega)
  have hfp : stackPtrAddr (stack_push { framesCtx base n ud M with jb := j }
      ({ framesCtx base n ud M with jb := j } : Ctx).frame_ptr) - W
      = fAddr base n (M + 1) := by
    simp only [stack_push, stackPtrAddr, stackEnd, framesCtx, List.length_cons,
      frameStack_length, fAddr, W]
    omega
  simp only [frame_push, hsp]
  rw [if_neg (by omega)]
  rw [hfp]
  rfl

/-- K iterated frame_pushes on the M-frame context. -/
theorem pushFramesN_frames (base n ud j : Nat) (K M : Nat) (hb : base % W = 0)
    (hn : 2 * (M + K) ≤ n) :
    pushFramesN K { framesCtx base n ud M with jb := j }
      = .ok { framesCtx base n ud (M + K) with jb := j } := by
  induction K generalizing M with
  | zero => rfl
  | succ k ih =>
    rw [show M + (k + 1) = M + 1 + k by omega]
    rw [pushFramesN, frame_push_frames base n ud M j hb (by omega)]
    exact ih (M + 1) (by omega)

/-- K iterated frame_pushes, jb-free version. -/
theorem pushFramesN_frames0 (base n ud : Nat) (K M : Nat) (hb : base % W = 0)
    (hn : 2 * (M + K) ≤ n) :
    pushFramesN K (framesCtx base n ud M) = .ok (framesCtx base n ud (M + K)) :=
  pushFramesN_frames base n ud 0 K M hb hn

/-- except_try on a callback that returns normally: only jb is restored. -/
theorem except_try_of_ok (c : Ctx) (f : Ctx → TryOutcome) (c1 : Ctx)
    (h : f { c with jb := c.jb + 1 } = .ok c1) :
    except_try c f = (.ok, { c1 with jb := c.jb }, []) := by
  rw [except_try, h]

/-- ctx_construct pushes the two initial frames. -/
theorem ctx_construct_frames (base n ud j : Nat) (hb : base % W = 0)
    (hn : 4 ≤ n) :
    ctx_construct { framesCtx base n ud 0 with jb := j }
      = .ok { framesCtx base n ud 2 with jb := j } := by
  simp only [ctx_construct, frame_push_frames base n ud 0 j hb (by omega),
    frame_push_frames base n ud 1 j hb (by omega)]

/-- Characterization of a successful mcl_init: result OK and the
two-initial-frames context. -/
theorem mcl_init_frames (base n ud : Nat) (hb : base % W = 0)
    (hn : MCL_MIN_HEAP_ENTRIES ≤ n) :
    mcl_init base n ud = (.ok, some (framesCtx base n ud 2)) := by
  have h4 : 4 ≤ n := by
    simp only [MCL_MIN_HEAP_ENTRIES] at hn
    omega
  have hc : ctx_construct { initCtx base n ud with jb := (initCtx base n ud).jb + 1 }
      = .ok { framesCtx base n ud 2 with jb := 1 } := by
    show ctx_construct { framesCtx base n ud 0 with jb := 1 } = _
    exact ctx_construct_frames base n ud 1 hb h4
  have he := except_try_of_ok (initCtx base n ud) ctx_construct _ hc
  rw [mcl_init, if_neg (Nat.not_lt.mpr hn), he]
  rfl

/-- Reading the previous-frame link of frame m in the M-frame context. -/
theorem frameStack_getD (base n : Nat) :
    ∀ M m, 1 ≤ m → m ≤ M →
      (frameStack base n M).getD (2 * (M - m) + 1) 0 = fAddr base n (m - 1)
| 0, m, h1, h2 => by omega
| M + 1, m, h1, h2 => by
  by_cases hm : m = M + 1
  · subst hm
    simp only [Nat.sub_self, Nat.mul_zero, Nat.zero_add, frameStack]
    rfl
  · have hmM : m ≤ M := by omega
    have hidx : 2 * (M + 1 - m) + 1 = 2 * (M - m) + 1 + 1 + 1 := by omega
    rw [hidx]
    simp only [frameStack, List.getD_cons_succ]
    exact frameStack_getD base n M m h1 hmM

/-- readSlot at the previous-frame link slot of frame m. -/
theorem readSlot_frames (base n ud M m : Nat) (h1 : 1 ≤ m) (h2 : m ≤ M)
    (hn : 2 * M ≤ n) :
    readSlot (framesCtx base n ud M) (fAddr base n m + W) = fAddr base n (m - 1) := by
  have hsp : stackPtrAddr (framesCtx base n ud M) = base + n * W - 2 * M * W :=
    stackPtrAddr_frames base n ud M 0
  have hidx : (fAddr base n m + W - stackPtrAddr (framesCtx base n ud M)) / W
      = 2 * (M - m) + 1 := by
    rw [hsp]
    simp only [fAddr, W]
    omega
  unfold readSlot
  rw [hidx]
  exact frameStack_getD base n M m h1 h2

/-- seekUp walks i previous-frame links from frame m. -/
theorem seekUp_frames (base n ud M : Nat) (hn : 2 * M ≤ n) :
    ∀ i m, i < m → m ≤ M →
      seekUp (framesCtx base n ud M) (fAddr base n m) i = some (fAddr base n (m - i))
| 0, m, _, _ => rfl
| i + 1, m, hi, hm => by
  have h2 : 2 ≤ m := by omega
  rw [seekUp, readSlot_frames base n ud M m (by omega) hm hn]
  rw [if_neg (by simp only [fAddr, stackEnd, framesCtx, W]; omega)]
  rw [seekUp_frames base n ud M hn i (m - 1) (by omega) (by omega)]
  rw [show m - 1 - i = m - (i + 1) by omega]

/-- seekUp returns none when asked for at least as many steps as there
are enclosing frames: the chain reaches stack_end first. -/
theorem seekUp_frames_none (base n ud M : Nat) (hn : 2 * M ≤ n) :
    ∀ l m, 1 ≤ m → m ≤ M → m ≤ l →
      seekUp (framesCtx base n ud M) (fAddr base n m) l = none
| 0, m, h1, _, hl => by omega
| l + 1, m, h1, hm, hl => by
  rw [seekUp, readSlot_frames base n ud M m h1 hm hn]
  by_cases h2 : m = 1
  · subst h2
    rw [if_pos (by simp only [fAddr, stackEnd, framesCtx, W]; omega)]
  · rw [if_neg (by simp only [fAddr, stackEnd, framesCtx, W]; omega)]
    exact seekUp_frames_none base n ud M hn l (m - 1) (by omega) (by omega) (by omega)

/-- The chain-collection loop of frame_seek gathers the addresses of
frames 1..m (outermost at the head of the list) on top of acc. -/
theorem chainAux_frames (base n ud M : Nat) (hn : 2 * M ≤ n) :
    ∀ m fuel space acc, 1 ≤ m → m ≤ M → m ≤ space → m ≤ fuel →
      chainAux (framesCtx base n ud M) fuel (fAddr base n m) space acc
        = some ((List.range m).map (fun t => fAddr base n (t + 1)) ++ acc) := by
  intro m
  induction m with
  | zero => omega
  | succ m ih =>
    intro fuel space acc _ hM hsp hfl
    obtain ⟨fl, rfl⟩ : ∃ fl, fuel = fl + 1 := ⟨fuel - 1, by omega⟩
    rw [chainAux, if_neg (by omega)]
    rw [readSlot_frames base n ud M (m + 1) (by omega) hM hn]
    simp only [Nat.add_sub_cancel]
    by_cases hm : m = 0
    · subst hm
      rw [if_neg (by simp only [fAddr, stackEnd, framesCtx, W]; omega)]
      simp [List.range_succ]
    · rw [if_pos (by simp only [fAddr, stackEnd, framesCtx, W]; omega)]
      rw [ih fl (space - 1) (fAddr base n (m + 1) :: acc) (by omega) (by omega)
        (by omega) (by omega)]
      rw [List.range_succ]
      simp

/-- Claim C7 (amended): mcl_init on a region of exactly
MCL_MIN_HEAP_ENTRIES slots (the base being slot-aligned, as a C array of
pointers is) returns OK; afterwards mcl_user_data returns the supplied
pointer, stack_height equals 4 (two initial frames of two slots each, not
2 as the spec states), and heap_ptr equals heap_start. -/
theorem mcl_init_spec_amended (base ud : Nat) (hb : base % W = 0) :
    (mcl_init base MCL_MIN_HEAP_ENTRIES ud).1 = .ok
    ∧ ∃ c, (mcl_init base MCL_MIN_HEAP_ENTRIES ud).2 = some c
        ∧ mcl_user_data c = ud
        ∧ stack_height c = 4
        ∧ c.heap_ptr = c.heap_start := by
  rw [mcl_init_frames base MCL_MIN_HEAP_ENTRIES ud hb (Nat.le_refl _)]
  exact ⟨rfl, framesCtx base MCL_MIN_HEAP_ENTRIES ud 2, rfl, rfl, rfl, rfl⟩

/-- Witness for mcl_init_spec_amended at base 800, user data 42. -/
theorem mcl_init_spec_amended_witness :
    (mcl_init 800 16 42).1 = .ok
    ∧ ∃ c, (mcl_init 800 16 42).2 = some c ∧ mcl_user_data c = 42
        ∧ stack_height c = 4 := by
  obtain ⟨h1, c, hc, hu, hh, _⟩ := mcl_init_spec_amended 800 42 (by decide)
  exact ⟨h1, c, hc, hu, hh⟩

/-- stack_space of the M-frame context, jb-free version. -/
theorem stack_space_frames0 (base n ud M : Nat) (hb : base % W = 0)
    (hn : 2 * M ≤ n) :
    stack_space (framesCtx base n ud M) = n - 2 * M :=
  stack_space_frames base n ud M 0 hb hn

/-- Claim C6: after successful init and K frame_pushes (frame chain of
K + 2 frames), frame_seek from the top with level i and from the base
with level -1 - j address the same non-null frame whenever
i + j = K - 1 + 2; and a positive level returns absent when the
previous-frame chain reaches stack_end before level steps are taken
(that is, for any level of at least K + 2). -/
theorem frame_seek_symmetry (base n ud K i j : Nat) (c0 cK : Ctx)
    (hb : base % W = 0) (hn : 3 * (K + 2) ≤ n)
    (hmin : MCL_MIN_HEAP_ENTRIES ≤ n) (hij : i + j = K + 1)
    (h0 : (mcl_init base n ud).2 = some c0)
    (hK : pushFramesN K c0 = .ok cK) :
    frame_seek cK (i : Int) = .ok (some (fAddr base n (j + 1)))
    ∧ frame_seek cK (-1 - (j : Int)) = .ok (some (fAddr base n (j + 1)))
    ∧ (∀ lvl : Nat, K + 2 ≤ lvl → frame_seek cK (lvl : Int) = .ok none) := by
  rw [mcl_init_frames base n ud hb hmin] at h0
  injection h0 with h0
  subst h0
  rw [pushFramesN_frames0 base n ud K 2 hb (by omega)] at hK
  injection hK with hK
  subst hK
  have hlen : (framesCtx base n ud (2 + K)).stack.length = 2 * (2 + K) :=
    frameStack_length base n (2 + K)
  refine ⟨?_, ?_, ?_⟩
  · by_cases hi : 0 < i
    · rw [frame_seek, if_pos (by exact_mod_cast hi), Int.toNat_natCast]
      show Except.ok (seekUp (framesCtx base n ud (2 + K)) (fAddr base n (2 + K)) i) = _
      rw [seekUp_frames base n ud (2 + K) (by omega) i (2 + K) (by omega) (by omega)]
      rw [show 2 + K - i = j + 1 by omega]
    · have hi0 : i = 0 := by omega
      subst hi0
      rw [frame_seek, if_neg (by norm_num), if_neg (by norm_num)]
      show Except.ok (some (fAddr base n (2 + K))) = _
      rw [show 2 + K = j + 1 by omega]
  · rw [frame_seek, if_neg (by omega), if_pos (by omega)]
    have hch := chainAux_frames base n ud (2 + K) (by omega) (2 + K)
      ((framesCtx base n ud (2 + K)).stack.length + 1)
      (stack_space (framesCtx base n ud (2 + K))) [] (by omega) (Nat.le_refl _)
      (by rw [stack_space_frames0 base n ud (2 + K) hb (by omega)]; omega)
      (by rw [hlen]; omega)
    rw [List.append_nil] at hch
    rw [show (framesCtx base n ud (2 + K)).frame_ptr = fAddr base n (2 + K) from rfl]
    rw [hch]
    have hlst : ((List.range (2 + K)).map (fun t => fAddr base n (t + 1))).length
        = 2 + K := by
      rw [List.length_map, List.length_range]
    rw [show (-1 - (-1 - (j : Int))).toNat = j by omega]
    show (if (List.map (fun t => fAddr base n (t + 1)) (List.range (2 + K))).length ≤ j
        then Except.ok none
        else Except.ok
          (some ((List.map (fun t => fAddr base n (t + 1)) (List.range (2 + K))).getD j 0)))
      = Except.ok (some (fAddr base n (j + 1)))
    rw [if_neg (by rw [hlst]; omega)]
    have hget : ((List.range (2 + K)).map (fun t => fAddr base n (t + 1))).getD j 0
        = fAddr base n (j + 1) := by
      rw [List.getD_eq_getElem _ _ (by rw [hlst]; omega), List.getElem_map,
        List.getElem_range]
    rw [hget]
  · intro lvl hlvl
    rw [frame_seek, if_pos (by exact_mod_cast (by omega : 0 < lvl)), Int.toNat_natCast]
    show Except.ok (seekUp (framesCtx base n ud (2 + K)) (fAddr base n (2 + K)) lvl) = _
    rw [seekUp_frames_none base n ud (2 + K) (by omega) lvl (2 + K) (by omega)
      (Nat.le_refl _) (by omega)]

/-- Witness for frame_seek_symmetry: K = 1 (three frames) on a 16-slot
region at base 800; i = 1 and j = 1 both address the middle frame at
fAddr 800 16 2 = 896, and level 3 walks off the chain. -/
theorem frame_seek_symmetry_witness :
    frame_seek (framesCtx 800 16 5 3) 1 = .ok (some (fAddr 800 16 2))
    ∧ frame_seek (framesCtx 800 16 5 3) (-1 - 1) = .ok (some (fAddr 800 16 2))
    ∧ frame_seek (framesCtx 800 16 5 3) 3 = .ok none := by
  have h := frame_seek_symmetry 800 16 5 1 1 1 (framesCtx 800 16 5 2)
    (framesCtx 800 16 5 3) (by decide) (by decide) (by decide) (by decide)
    rfl rfl
  exact ⟨h.1, h.2.1, h.2.2 3 (by decide)⟩

/-- Unfolded description of a successful string_alloc. -/
theorem string_alloc_ok (c : Ctx) (len : Nat) (x : Ctx × Nat)
    (h : string_alloc c len = .ok x) :
    x.2 = c.heap_ptr
    ∧ x.1.user_data = c.user_data
    ∧ x.1.heap_start = c.heap_start
    ∧ x.1.nslots = c.nslots
    ∧ x.1.stack = c.stack
    ∧ x.1.frame_ptr = c.frame_ptr
    ∧ x.1.jb = c.jb
    ∧ x.1.heap_ptr = c.heap_ptr + string_size len
    ∧ string_size len ≤ heap_space c
    ∧ x.1.mem = Function.update
        (pack_u16 (Function.update c.mem c.heap_ptr 1) (c.heap_ptr + 1) len)
        (string_chars c.heap_ptr + len) 0 := by
  rw [string_alloc] at h
  by_cases hs : heap_space c < string_size len
  · rw [if_pos hs] at h
    cases h
  · rw [if_neg hs] at h
    injection h with h
    subst h
    exact ⟨rfl, rfl, rfl, rfl, rfl, rfl, rfl, rfl, by omega, rfl⟩

/-- runPushes distributes over list append. -/
theorem runPushes_append (l1 l2 : List PushOp) :
    ∀ c, runPushes c (l1 ++ l2) =
      match runPushes c l1 with
      | none => none
      | some x =>
        match runPushes x.1 l2 with
        | none => none
        | some y => some (y.1, y.2 ++ x.2) := by
  induction l1 with
  | nil =>
    intro c
    show runPushes c l2 = _
    cases h : runPushes c l2 with
    | none => simp [runPushes, h]
    | some y => simp [runPushes, h]
  | cons op rest ih =>
    intro c
    cases op with
    | str len =>
      show runPushes c (.str len :: (rest ++ l2)) = _
      by_cases hlen : len ≤ MCL_MAX_STRING_LEN
      · simp only [runPushes, if_pos hlen]
        cases ha : string_alloc c len with
        | error e => rfl
        | ok x =>
          simp only []
          rw [ih (stack_push x.1 x.2)]
          cases hr : runPushes (stack_push x.1 x.2) rest with
          | none => rfl
          | some u =>
            simp only []
            cases hl : runPushes u.1 l2 with
            | none => rfl
            | some v => simp [List.append_assoc]
      · simp only [runPushes, if_neg hlen]
    | raw v =>
      show runPushes c (.raw v :: (rest ++ l2)) = _
      by_cases hv : v < c.heap_start ∨ stackEnd c ≤ v
      · simp only [runPushes, if_pos hv]
        exact ih (stack_push c v)
      · simp only [runPushes, if_neg hv]

/-- runPushes leaves all context fields except heap_ptr, stack and memory
unchanged, only ever grows the heap and the stack, and keeps the heap tip
inside the region. -/
theorem runPushes_inv (ops : List PushOp) :
    ∀ c c2 s, runPushes c ops = some (c2, s) →
      c2.user_data = c.user_data ∧ c2.heap_start = c.heap_start
      ∧ c2.nslots = c.nslots ∧ c2.frame_ptr = c.frame_ptr ∧ c2.jb = c.jb
      ∧ c.heap_ptr ≤ c2.heap_ptr
      ∧ (c.heap_ptr ≤ stackEnd c → c2.heap_ptr ≤ stackEnd c2)
      ∧ c.stack.length ≤ c2.stack.length := by
  induction ops with
  | nil =>
    intro c c2 s h
    simp only [runPushes] at h
    injection h with h
    rw [Prod.mk.injEq] at h
    obtain ⟨rfl, rfl⟩ := h
    exact ⟨rfl, rfl, rfl, rfl, rfl, Nat.le_refl _, fun hh => hh, Nat.le_refl _⟩
  | cons op rest ih =>
    intro c c2 s h
    cases op with
    | str len =>
      rw [runPushes] at h
      by_cases hlen : len ≤ MCL_MAX_STRING_LEN
      · rw [if_pos hlen] at h
        cases ha : string_alloc c len with
        | error e => rw [ha] at h; simp at h
        | ok x =>
          rw [ha] at h
          simp only [] at h
          cases hy : runPushes (stack_push x.1 x.2) rest with
          | none => rw [hy] at h; simp at h
          | some y =>
            rw [hy] at h
            simp only [] at h
            injection h with h
            rw [Prod.mk.injEq] at h
            obtain ⟨rfl, rfl⟩ := h
            obtain ⟨hx2, hud, hhs, hns, hstk, hfp, hjb, hhp, hsz, hmem⟩ :=
              string_alloc_ok c len x ha
            obtain ⟨iud, ihs, ins, ifp, ijb, ihp, iE, ilen⟩ :=
              ih (stack_push x.1 x.2) y.1 y.2 (by rw [hy])
            have ihp' : x.1.heap_ptr ≤ y.1.heap_ptr := ihp
            have ilen' : x.1.stack.length + 1 ≤ y.1.stack.length := ilen
            have hxE : x.1.heap_ptr ≤ stackEnd x.1 := by
              rw [hhp]
              unfold stackEnd
              rw [hhs, hns]
              unfold heap_space stackPtrAddr stackEnd at hsz
              simp only [string_size] at hsz ⊢
              omega
            refine ⟨iud.trans hud, ihs.trans hhs, ins.trans hns, ifp.trans hfp,
              ijb.trans hjb, by omega, fun _ => iE hxE, ?_⟩
            rw [hstk] at ilen'
            omega
      · rw [if_neg hlen] at h
        cases h
    | raw v =>
      rw [runPushes] at h
      by_cases hv : v < c.heap_start ∨ stackEnd c ≤ v
      · rw [if_pos hv] at h
        obtain ⟨iud, ihs, ins, ifp, ijb, ihp, iE, ilen⟩ :=
          ih (stack_push c v) c2 s h
        have ilen' : c.stack.length + 1 ≤ c2.stack.length := ilen
        exact ⟨iud, ihs, ins, ifp, ijb, ihp, fun hh => iE hh, by omega⟩
      · rw [if_neg hv] at h
        cases h

/-- The string addresses recorded by runPushes all lie in the heap bytes
allocated during the run, in strictly descending order (most recent
first). -/
theorem runPushes_strs (ops : List PushOp) :
    ∀ c c2 s, runPushes c ops = some (c2, s) →
      (∀ x ∈ s, c.heap_ptr ≤ x ∧ x < c2.heap_ptr) ∧ s.Pairwise (· > ·) := by
  induction ops with
  | nil =>
    intro c c2 s h
    simp only [runPushes] at h
    injection h with h
    rw [Prod.mk.injEq] at h
    obtain ⟨rfl, rfl⟩ := h
    exact ⟨by simp, by simp⟩
  | cons op rest ih =>
    intro c c2 s h
    cases op with
    | str len =>
      rw [runPushes] at h
      by_cases hlen : len ≤ MCL_MAX_STRING_LEN
      · rw [if_pos hlen] at h
        cases ha : string_alloc c len with
        | error e => rw [ha] at h; simp at h
        | ok x =>
          rw [ha] at h
          simp only [] at h
          cases hy : runPushes (stack_push x.1 x.2) rest with
          | none => rw [hy] at h; simp at h
          | some y =>
            rw [hy] at h
            simp only [] at h
            injection h with h
            rw [Prod.mk.injEq] at h
            obtain ⟨rfl, rfl⟩ := h
            obtain ⟨hx2, _, _, _, _, _, _, hhp, _, _⟩ := string_alloc_ok c len x ha
            obtain ⟨imem, ipw⟩ := ih (stack_push x.1 x.2) y.1 y.2 (by rw [hy])
            have imono := (runPushes_inv rest (stack_push x.1 x.2) y.1 y.2
              (by rw [hy])).2.2.2.2.2.1
            have imono' : x.1.heap_ptr ≤ y.1.heap_ptr := imono
            have hpos : 0 < string_size len := by
              simp [string_size]
            constructor
            · intro z hz
              rcases List.mem_append.mp hz with hz | hz
              · have := imem z hz
                have h1 : x.1.heap_ptr ≤ z := this.1
                constructor <;> omega
              · have hz' : z = x.2 := by simpa using hz
                subst hz'
                rw [hx2]
                constructor
                · omega
                · omega
            · rw [List.pairwise_append]
              refine ⟨ipw, by simp, ?_⟩
              intro a ha' b hb
              have hb' : b = x.2 := by simpa using hb
              subst hb'
              have := (imem a ha').1
              have h1 : x.1.heap_ptr ≤ a := this
              rw [hx2]
              omega
      · rw [if_neg hlen] at h
        cases h
    | raw v =>
      rw [runPushes] at h
      by_cases hv : v < c.heap_start ∨ stackEnd c ≤ v
      · rw [if_pos hv] at h
        obtain ⟨imem, ipw⟩ := ih (stack_push c v) c2 s h
        exact ⟨fun z hz => (imem z hz), ipw⟩
      · rw [if_neg hv] at h
        cases h

/-- One string_unref of the top allocation takes the fast path of
heap_shrink: only heap_ptr retracts. -/
theorem string_unref_top (c : Ctx) (p len : Nat)
    (hmem : c.mem p = 1)
    (hl : string_len c p = len)
    (hp : c.heap_ptr = p + string_size len) :
    string_unref c p = { c with heap_ptr := p } := by
  rw [string_unref, if_pos hmem, hl, heap_free, heap_shrink]
  rw [if_neg (by omega)]
  show { c with heap_ptr := c.heap_ptr - (string_size len - 0) } = _
  rw [show c.heap_ptr - (string_size len - 0) = p by omega]

/-- Unwinding back to the pre-run stack mark after a run of pushes pops
exactly the pushed slots, releases exactly the pushed strings (each freed
as the then-top allocation) and discards the pushed non-heap values.  The
unwound context may differ from the context built by the run in memory
above its heap tip only, and the final context agrees with the pre-run
context on everything except that dead memory. -/
theorem unwind_runPushes (ops : List PushOp) :
    ∀ c1 c2 strs fuel d2,
      runPushes c1 ops = some (c2, strs) →
      c1.heap_start ≤ c1.heap_ptr →
      c1.heap_ptr ≤ stackEnd c1 →
      UnwEq c2 d2 →
      c2.stack.length - c1.stack.length ≤ fuel →
      ∃ cf, unwindAux fuel d2 c1.stack.length = (cf, strs) ∧ UnwEq c1 cf := by
  induction ops using List.reverseRecOn with
  | nil =>
    intro c1 c2 strs fuel d2 h hh1 hh2 hq hfl
    simp only [runPushes] at h
    injection h with h
    rw [Prod.mk.injEq] at h
    obtain ⟨rfl, rfl⟩ := h
    obtain ⟨q1, q2, q3, q4, q5, q6, q7, q8⟩ := hq
    cases fuel with
    | zero => exact ⟨d2, rfl, q1, q2, q3, q4, q5, q6, q7, q8⟩
    | succ fl =>
      refine ⟨d2, ?_, q1, q2, q3, q4, q5, q6, q7, q8⟩
      rw [unwindAux, if_neg (by rw [q5]; omega)]
  | append_singleton l op ih =>
    intro c1 c2 strs fuel d2 h hh1 hh2 hq hfl
    rw [runPushes_append l [op] c1] at h
    cases hr : runPushes c1 l with
    | none => rw [hr] at h; simp at h
    | some u =>
      rw [hr] at h
      simp only [] at h
      obtain ⟨cB, sB⟩ := u
      cases ho : runPushes cB [op] with
      | none => rw [ho] at h; simp at h
      | some w =>
        rw [ho] at h
        simp only [] at h
        injection h with h
        rw [Prod.mk.injEq] at h
        obtain ⟨rfl, rfl⟩ := h
        obtain ⟨bud, bhs, bns, bfp, bjb, bhp, bE, blen⟩ :=
          runPushes_inv l c1 cB sB (by rw [hr])
        cases op with
        | str len =>
          rw [runPushes] at ho
          by_cases hlen : len ≤ MCL_MAX_STRING_LEN
          · rw [if_pos hlen] at ho
            cases ha : string_alloc cB len with
            | error e => rw [ha] at ho; simp at ho
            | ok x =>
              rw [ha] at ho
              simp only [runPushes] at ho
              injection ho with ho
              obtain ⟨x1, p⟩ := x
              obtain ⟨hax2, aud, ahs, ans, astk, afp, ajb, ahp, asz, amem⟩ :=
                string_alloc_ok cB len (x1, p) ha
              simp only [] at hax2 aud ahs ans astk afp ajb ahp amem
              subst hax2
              subst ho
              obtain ⟨q1, q2, q3, q4, q5, q6, q7, q8⟩ := hq
              simp only [] at q1 q2 q3 q4 q5 q6 q7 q8 hfl
              have hsize : 0 < string_size len := by simp [string_size]
              have hdstk : d2.stack = cB.heap_ptr :: cB.stack := by
                rw [q5]
                show cB.heap_ptr :: x1.stack = _
                rw [astk]
              have hdhp : d2.heap_ptr = cB.heap_ptr + string_size len := by
                rw [q3]
                show x1.heap_ptr = _
                exact ahp
              have hdmem : ∀ a, a < x1.heap_ptr → d2.mem a = x1.mem a := q8
              have hfl2 : (stack_push x1 cB.heap_ptr).stack.length
                  - c1.stack.length ≤ fuel := hfl
              have hpl : (stack_push x1 cB.heap_ptr).stack.length
                  = cB.stack.length + 1 := by
                show x1.stack.length + 1 = _
                rw [astk]
              obtain ⟨fl, rfl⟩ : ∃ fl, fuel = fl + 1 :=
                ⟨fuel - 1, by rw [hpl] at hfl2; omega⟩
              have hcond : c1.stack.length < d2.stack.length := by
                rw [hdstk]
                simp only [List.length_cons]
                omega
              have hpop : stack_pop d2 = (cB.heap_ptr, { d2 with stack := cB.stack }) := by
                rw [stack_pop, hdstk]
                rfl
              have hmem1 : ({ d2 with stack := cB.stack } : Ctx).mem cB.heap_ptr = 1 := by
                show d2.mem cB.heap_ptr = 1
                rw [hdmem cB.heap_ptr (by rw [ahp]; omega), amem]
                simp only [pack_u16, string_chars]
                rw [Function.update_noteq (by omega), Function.update_noteq (by omega),
                  Function.update_noteq (by omega), Function.update_same]
              have hlen2 : string_len ({ d2 with stack := cB.stack } : Ctx) cB.heap_ptr
                  = len := by
                show unpack_u16 d2.mem (cB.heap_ptr + 1) = len
                unfold unpack_u16
                rw [hdmem (cB.heap_ptr + 1 + 1) (by rw [ahp]; simp only [string_size]; omega),
                  hdmem (cB.heap_ptr + 1) (by rw [ahp]; simp only [string_size]; omega)]
                rw [amem]
                simp only [pack_u16, string_chars]
                rw [Function.update_noteq (by omega), Function.update_same,
                  Function.update_noteq (by omega), Function.update_noteq (by omega),
                  Function.update_same]
                have hmax : len < 65536 := by
                  simp only [MCL_MAX_STRING_LEN] at hlen
                  omega
                omega
              have hcont : heap_contains ({ d2 with stack := cB.stack } : Ctx)
                  cB.heap_ptr = true := by
                simp only [heap_contains, decide_eq_true_eq]
                constructor
                · show d2.heap_start ≤ cB.heap_ptr
                  have hq2 : d2.heap_start = cB.heap_start := q2.trans ahs
                  rw [hq2, bhs]
                  omega
                · show cB.heap_ptr < d2.heap_ptr
                  rw [hdhp]
                  omega
              have hunref : string_unref ({ d2 with stack := cB.stack } : Ctx) cB.heap_ptr
                  = { d2 with stack := cB.stack, heap_ptr := cB.heap_ptr } := by
                rw [string_unref_top _ _ len hmem1 hlen2 (by show d2.heap_ptr = _; omega)]
              have hqB : UnwEq cB { d2 with stack := cB.stack, heap_ptr := cB.heap_ptr } := by
                refine ⟨q1.trans aud, q2.trans ahs, rfl, q4.trans ans, rfl,
                  q6.trans afp, q7.trans ajb, ?_⟩
                intro a haa
                show d2.mem a = cB.mem a
                rw [hdmem a (by rw [ahp]; omega), amem]
                simp only [pack_u16, string_chars]
                rw [Function.update_noteq (by omega), Function.update_noteq (by omega),
                  Function.update_noteq (by omega), Function.update_noteq (by omega)]
              obtain ⟨cf, ihEq, ihQ⟩ := ih c1 cB sB fl
                { d2 with stack := cB.stack, heap_ptr := cB.heap_ptr }
                (by rw [hr]) hh1 hh2 hqB (by rw [hpl] at hfl2; omega)
              refine ⟨cf, ?_, ihQ⟩
              rw [unwindAux, if_pos hcond]
              simp only []
              rw [hpop]
              simp only []
              rw [if_pos hcont, hunref, ihEq]
              rfl
          · rw [if_neg hlen] at ho
            simp at ho
        | raw v =>
          rw [runPushes] at ho
          by_cases hv : v < cB.heap_start ∨ stackEnd cB ≤ v
          · rw [if_pos hv] at ho
            simp only [runPushes] at ho
            injection ho with ho
            subst ho
            obtain ⟨q1, q2, q3, q4, q5, q6, q7, q8⟩ := hq
            simp only [] at q1 q2 q3 q4 q5 q6 q7 q8 hfl
            have hdstk : d2.stack = v :: cB.stack := q5
            have hdhp : d2.heap_ptr = cB.heap_ptr := q3
            have hfl2 : (stack_push cB v).stack.length - c1.stack.length ≤ fuel := hfl
            have hpl : (stack_push cB v).stack.length = cB.stack.length + 1 := rfl
            obtain ⟨fl, rfl⟩ : ∃ fl, fuel = fl + 1 :=
              ⟨fuel - 1, by rw [hpl] at hfl2; omega⟩
            have hcond : c1.stack.length < d2.stack.length := by
              rw [hdstk]
              simp only [List.length_cons]
              omega
            have hpop : stack_pop d2 = (v, { d2 with stack := cB.stack }) := by
              rw [stack_pop, hdstk]
              rfl
            have hcont : heap_contains ({ d2 with stack := cB.stack } : Ctx) v = false := by
              simp only [heap_contains, decide_eq_false_iff_not, not_and, not_lt]
              intro hle
              show d2.heap_ptr ≤ v
              have hq2 : d2.heap_start = cB.heap_start := q2
              rw [hq2] at hle
              rcases hv with hv | hv
              · omega
              · have hBE := bE hh2
                have hE2 : stackEnd cB = cB.heap_start + cB.nslots * W := rfl
                rw [hdhp]
                have hEeq : stackEnd cB = stackEnd c1 - 0 + 0 := by
                  unfold stackEnd
                  rw [bhs, bns]
                  omega
                unfold stackEnd at hBE hv hEeq
                omega
            have hqB : UnwEq cB { d2 with stack := cB.stack } := by
              refine ⟨q1, q2, hdhp, q4, rfl, q6, q7, ?_⟩
              intro a haa
              show d2.mem a = cB.mem a
              exact q8 a haa
            obtain ⟨cf, ihEq, ihQ⟩ := ih c1 cB sB fl { d2 with stack := cB.stack }
              (by rw [hr]) hh1 hh2 hqB (by rw [hpl] at hfl2; omega)
            refine ⟨cf, ?_, ihQ⟩
            rw [unwindAux, if_pos hcond]
            simp only []
            rw [hpop]
            simp only []
            rw [if_neg (by rw [hcont]; simp), ihEq]
            rfl
          · rw [if_neg hv] at ho
            simp at ho

/-- Claim C2: a try-run whose callback pushes any number of strings
(each the sole reference, pushed right after allocation), interleaved
with non-heap values, and then raises OUT_OF_MEMORY returns
OUT_OF_MEMORY; afterwards stack_ptr, frame_ptr, stack_height and
heap_space equal their pre-try values; the values released during the
unwind are exactly the pushed string objects, each exactly once (the
released list has no duplicates), and the non-heap slots are discarded
without release. -/
theorem except_try_oom_restores (c : Ctx) (ops : List PushOp) (c' : Ctx)
    (strs : List Nat)
    (h1 : c.heap_start ≤ c.heap_ptr) (h2 : c.heap_ptr ≤ stackEnd c)
    (hrun : runPushes { c with jb := c.jb + 1 } ops = some (c', strs)) :
    (except_try c (oomCallback ops)).1 = .out_of_memory
    ∧ (except_try c (oomCallback ops)).2.1.stack = c.stack
    ∧ stack_height (except_try c (oomCallback ops)).2.1 = stack_height c
    ∧ stackPtrAddr (except_try c (oomCallback ops)).2.1 = stackPtrAddr c
    ∧ (except_try c (oomCallback ops)).2.1.frame_ptr = c.frame_ptr
    ∧ (except_try c (oomCallback ops)).2.1.heap_ptr = c.heap_ptr
    ∧ heap_space (except_try c (oomCallback ops)).2.1 = heap_space c
    ∧ (except_try c (oomCallback ops)).2.2 = strs
    ∧ strs.Nodup := by
  have h1' : ({ c with jb := c.jb + 1 } : Ctx).heap_start
      ≤ ({ c with jb := c.jb + 1 } : Ctx).heap_ptr := h1
  have h2' : ({ c with jb := c.jb + 1 } : Ctx).heap_ptr
      ≤ stackEnd { c with jb := c.jb + 1 } := h2
  have hq0 : UnwEq c' c' := ⟨rfl, rfl, rfl, rfl, rfl, rfl, rfl, fun _ _ => rfl⟩
  obtain ⟨cf, hu, q⟩ := unwind_runPushes ops { c with jb := c.jb + 1 } c' strs
    c'.stack.length c' hrun h1' h2' hq0 (by omega)
  obtain ⟨q1, q2, q3, q4, q5, q6, q7, q8⟩ := q
  have hcb : oomCallback ops { c with jb := c.jb + 1 }
      = .thrown .out_of_memory c' := by
    rw [oomCallback, hrun]
  have hu' : unwindAux c'.stack.length c' c.stack.length = (cf, strs) := hu
  have hres : except_try c (oomCallback ops)
      = (.out_of_memory, { cf with frame_ptr := c.frame_ptr, jb := c.jb }, strs) := by
    rw [except_try, hcb]
    simp only []
    rw [hu']
  rw [hres]
  have hnodup : strs.Nodup := by
    have hp := (runPushes_strs ops { c with jb := c.jb + 1 } c' strs hrun).2
    exact hp.imp (fun hab => ne_of_gt hab)
  refine ⟨rfl, ?_, ?_, ?_, rfl, ?_, ?_, rfl, hnodup⟩
  · show cf.stack = c.stack
    exact q5
  · show cf.stack.length = c.stack.length
    rw [q5]
  · unfold stackPtrAddr stackEnd
    show cf.heap_start + cf.nslots * W - cf.stack.length * W = _
    rw [q2, q4, q5]
  · show cf.heap_ptr = c.heap_ptr
    exact q3
  · unfold heap_space stackPtrAddr stackEnd
    show cf.heap_start + cf.nslots * W - cf.stack.length * W - cf.heap_ptr = _
    rw [q2, q3, q4, q5]

/-- Witness for except_try_oom_restores: the freshly initialized 16-slot
context at base 800; the callback pushes a length-1 string (allocated at
800), the non-heap value 0 (NULL) and a length-2 string (allocated at
805), then raises OUT_OF_MEMORY.  The released list is exactly the two
strings, most recently pushed first. -/
theorem except_try_oom_restores_witness :
    (except_try (framesCtx 800 16 7 2)
        (oomCallback [.str 1, .raw 0, .str 2])).1 = .out_of_memory
    ∧ (except_try (framesCtx 800 16 7 2)
        (oomCallback [.str 1, .raw 0, .str 2])).2.1.stack
        = (framesCtx 800 16 7 2).stack
    ∧ (except_try (framesCtx 800 16 7 2)
        (oomCallback [.str 1, .raw 0, .str 2])).2.1.heap_ptr = 800
    ∧ (except_try (framesCtx 800 16 7 2)
        (oomCallback [.str 1, .raw 0, .str 2])).2.2 = [805, 800] := by
  have h := except_try_oom_restores (framesCtx 800 16 7 2) [.str 1, .raw 0, .str 2]
    ((runPushes { framesCtx 800 16 7 2 with jb := (framesCtx 800 16 7 2).jb + 1 }
        [.str 1, .raw 0, .str 2]).getD (framesCtx 800 16 7 2, [])).1
    [805, 800] (by decide) (by decide) rfl
  obtain ⟨hres, hstk, _, _, _, hhp, _, hrel, _⟩ := h
  exact ⟨hres, hstk, hhp, hrel⟩

end MCL
